import Mathlib

/-!
Shallow embedding of `app.py` (a PowerPoint generator): key normalization,
record resolution against a mapping table, availability aggregation,
placeholder substitution over paragraph runs, and image placeholder
processing.  Python strings are modelled as Lean `String`s (with the
character-list view used internally), dataframe rows as association lists
from column names to Python values, and fallible Python code as `Except`.
-/

/-- Python values that can appear in a dataframe cell or as an item
identifier: strings, integers, `None`, and the float `NaN` that pandas uses
for missing cells.  This is the value universe the claims exercise. -/
inductive PyVal where
  | str (s : String)
  | int (n : Int)
  | none
  | nan
deriving DecidableEq

/-- Python `str(v)`: identity on strings, decimal rendering of integers,
`"None"` for `None` and `"nan"` for a float NaN. -/
def strPy : PyVal → String
  | .str s => s
  | .int n => toString n
  | .none => "None"
  | .nan => "nan"

/-- Python truthiness (`bool(v)`): empty string and zero are falsy, `None`
is falsy; NaN is truthy. -/
def pyTruthy : PyVal → Bool
  | .str s => s ≠ ""
  | .int n => n ≠ 0
  | .none => false
  | .nan => true

/-- `pd.isna`: true exactly on `None` and NaN. -/
def pyIsna : PyVal → Bool
  | .none => true
  | .nan => true
  | _ => false

/-- Characters matched by Python's regex `\s` (in unicode mode) on the code
points this development uses; it includes the non-breaking space U+00A0. -/
def isWS (c : Char) : Bool :=
  c = ' ' || c = '\t' || c = '\n' || c = '\r' || c = '\x0b' || c = '\x0c' || c = '\u00A0'

/-- Character-list core of `normalize_text`: replace U+00A0 by a space,
delete every whitespace character, lower-case the remainder (via the ASCII
`Char.toLower`, the fragment of Python `str.lower` that the token
vocabulary exercises) — mirroring the source's `re.sub` over `str(s)`
with U+00A0 first mapped to a space. -/
def normChars (l : List Char) : List Char :=
  ((l.map (fun c => if c = '\u00A0' then ' ' else c)).filter (fun c => !isWS c)).map Char.toLower

/-- `normalize_text` restricted to values that are already strings. -/
def normStr (s : String) : String :=
  ⟨normChars s.data⟩

/-- `normalize_text(s)` from `app.py`: removes all whitespace (including
non-breaking spaces) from `str(s)` and lower-cases the result. -/
def normalize_text (v : PyVal) : String :=
  normStr (strPy v)

/-- `normalize_col` from `app.py` is `normalize_text` on a column name. -/
def normalize_col (c : String) : String :=
  normalize_text (.str c)

/-- A dataframe row: an association list from (already normalized) column
names to cell values.  A column absent from the list stands for a column
absent from the frame. -/
def Row : Type := List (String × PyVal)

instance : DecidableEq Row := by
  unfold Row
  infer_instance

/-- `row.get(key, default)` on a pandas row. -/
def rowGet (r : Row) (k : String) (d : PyVal) : PyVal :=
  match r.find? (fun p => p.1 = k) with
  | some p => p.2
  | Option.none => d

/-- Python errors the embedding can surface. -/
inductive PyErr where
  | attributeError
deriving DecidableEq

/-- First pass of `find_mapping_row`: scan the rows in table order and
return the first whose normalized product code equals the normalized
identifier. -/
def scanExact (normItem : String) (key : String) : List Row → Option Row
  | [] => Option.none
  | r :: rs =>
    if normalize_text (rowGet r key (.str "")) = normItem then some r
    else scanExact normItem key rs

/-- Python `s.startswith(p)`, over the character lists. -/
def pyStartsWith (s p : String) : Bool :=
  p.data.isPrefixOf s.data

/-- Second pass of `find_mapping_row`: scan the rows in table order and
return the first whose normalized product code starts with the given stem. -/
def scanStem (stem : String) (key : String) : List Row → Option Row
  | [] => Option.none
  | r :: rs =>
    if pyStartsWith (normalize_text (rowGet r key (.str ""))) stem then some r
    else scanStem stem key rs

/-- `item_no.split("-")[0]` for a string: the text before the first hyphen. -/
def beforeHyphen (s : String) : String :=
  ⟨s.data.takeWhile (fun c => c ≠ '-')⟩

/-- `find_mapping_row(item_no, mapping_df, mapping_prod_key)` from `app.py`.
The exact pass compares normalized values; if it misses and `str(item_no)`
contains a hyphen the code calls `item_no.split("-")`, which raises
`AttributeError` when `item_no` is not a string (the code applies `str` in
the `in` test but not before `.split`). -/
def find_mapping_row (item_no : PyVal) (mapping_df : List Row) (mapping_prod_key : String) :
    Except PyErr (Option Row) :=
  let normItem := normalize_text item_no
  match scanExact normItem mapping_prod_key mapping_df with
  | some r => .ok (some r)
  | Option.none =>
    if '-' ∈ (strPy item_no).data then
      match item_no with
      | .str s =>
        .ok (scanStem (normStr (beforeHyphen s)) mapping_prod_key mapping_df)
      | _ => .error .attributeError
    else
      .ok Option.none

/-- Pandas element-wise `cell != ""`: string inequality on strings, `True`
on every non-string value. -/
def pyNeEmptyStr : PyVal → Bool
  | .str s => s ≠ ""
  | _ => true

/-- `dict.fromkeys` style deduplication with an accumulator of names
already seen: keeps the first occurrence of each string, in order. -/
def dedupSeen (seen : List String) : List String → List String
  | [] => []
  | x :: xs => if x ∈ seen then dedupSeen seen xs else x :: dedupSeen (x :: seen) xs

/-- `list(dict.fromkeys(names))`: deduplicate preserving first-seen order. -/
def dedupFirst (l : List String) : List String :=
  dedupSeen [] l

/-- The variant-name extraction shared by both stock functions: rows of the
stock table whose normalized product key equals `normKey` and whose
`flagCol` cell is non-null and not the empty string, mapped to their
`variantname` cells with nulls dropped and coerced to strings.  A cell
absent from a modelled row stands for a NaN cell of the dataframe. -/
def keptVariantNames (flagCol : String) (normKey : String) (stock_df : List Row) : List String :=
  (((stock_df.filter (fun r => normalize_text (rowGet r "productkey" .nan) = normKey)).filter
      (fun r => !pyIsna (rowGet r flagCol .nan) && pyNeEmptyStr (rowGet r flagCol .nan))).map
    (fun r => rowGet r "variantname" .nan)).filter (fun v => !pyIsna v) |>.map strPy

/-- The common algorithm of the two stock functions, parameterized by the
flag column and the final separator. -/
def process_stock_generic (flagCol : String) (sep : String) (mapping_row : Row)
    (stock_df : List Row) : String :=
  let product_key := rowGet mapping_row "productkey" (.str "")
  if !pyTruthy product_key || pyIsna product_key then ""
  else
    let norm_product_key := normalize_text product_key
    let filtered1 := stock_df.filter
      (fun r => normalize_text (rowGet r "productkey" .nan) = norm_product_key)
    if filtered1.isEmpty then ""
    else
      let filtered2 := filtered1.filter
        (fun r => !pyIsna (rowGet r flagCol .nan) && pyNeEmptyStr (rowGet r flagCol .nan))
      if filtered2.isEmpty then ""
      else
        let variant_names := ((filtered2.map (fun r => rowGet r "variantname" .nan)).filter
          (fun v => !pyIsna v)).map strPy
        String.intercalate sep (dedupFirst variant_names)

/-- `process_stock_rts_alternative(mapping_row, stock_df)` from `app.py`:
fetch the record's product key (a falsy or null key short-circuits to ""),
filter the stock table to rows with a matching normalized key, then to rows
whose `rts` cell is non-null and not the empty string, extract the
`variantname` values with nulls dropped, deduplicate preserving first-seen
order and join with a comma and a space. -/
def process_stock_rts_alternative (mapping_row : Row) (stock_df : List Row) : String :=
  let product_key := rowGet mapping_row "productkey" (.str "")
  if !pyTruthy product_key || pyIsna product_key then ""
  else
    let norm_product_key := normalize_text product_key
    let filtered1 := stock_df.filter
      (fun r => normalize_text (rowGet r "productkey" .nan) = norm_product_key)
    if filtered1.isEmpty then ""
    else
      let filtered2 := filtered1.filter
        (fun r => !pyIsna (rowGet r "rts" .nan) && pyNeEmptyStr (rowGet r "rts" .nan))
      if filtered2.isEmpty then ""
      else
        let variant_names := ((filtered2.map (fun r => rowGet r "variantname" .nan)).filter
          (fun v => !pyIsna v)).map strPy
        String.intercalate ", " (dedupFirst variant_names)

/-- `process_stock_mto_alternative(mapping_row, stock_df)` from `app.py`:
the duplicated sibling of the RTS function, reading the `mto` flag column
and joining with the same comma-and-space separator. -/
def process_stock_mto_alternative (mapping_row : Row) (stock_df : List Row) : String :=
  let product_key := rowGet mapping_row "productkey" (.str "")
  if !pyTruthy product_key || pyIsna product_key then ""
  else
    let norm_product_key := normalize_text product_key
    let filtered1 := stock_df.filter
      (fun r => normalize_text (rowGet r "productkey" .nan) = norm_product_key)
    if filtered1.isEmpty then ""
    else
      let filtered2 := filtered1.filter
        (fun r => !pyIsna (rowGet r "mto" .nan) && pyNeEmptyStr (rowGet r "mto" .nan))
      if filtered2.isEmpty then ""
      else
        let variant_names := ((filtered2.map (fun r => rowGet r "variantname" .nan)).filter
          (fun v => !pyIsna v)).map strPy
        String.intercalate ", " (dedupFirst variant_names)

/-- Modelled from the claim's words, for comparison with the code: keep the
stock rows whose normalized product key matches the record's normalized key
and whose `rts` flag cell is non-empty and non-null, extract the variant
names deduplicated in first-seen order, and join them with a comma and a
space; an empty kept set yields the empty string. -/
def claimAggregateRts (mapping_row : Row) (stock_df : List Row) : String :=
  let key := rowGet mapping_row "productkey" (.str "")
  if pyIsna key then ""
  else String.intercalate ", " (dedupFirst (keptVariantNames "rts" (normalize_text key) stock_df))

/-- Strip from both ends of a character list all characters satisfying `p`
(one layer of Python's `strip`). -/
def stripEnds (p : Char → Bool) (l : List Char) : List Char :=
  ((l.dropWhile p).reverse.dropWhile p).reverse

/-- `placeholder.strip("\x7b\x7d").strip()` from the substitution functions:
remove the surrounding braces, then surrounding whitespace, leaving the
token name. -/
def stripKey (ph : String) : String :=
  ⟨stripEnds isWS (stripEnds (fun c => c = '{' || c = '}') ph.data)⟩

/-- After the token name and trailing whitespace, the matcher expects the
two closing braces; returns the remainder after them. -/
def matchAfterKey : List Char → Option (List Char)
  | d1 :: d2 :: r => if d1 = '}' ∧ d2 = '}' then some r else Option.none
  | _ => Option.none

/-- After the two opening braces: skip whitespace, require the token name
literally, skip whitespace, require the closing braces. -/
def matchBody (key rest : List Char) : Option (List Char) :=
  let r1 := rest.dropWhile isWS
  if key.isPrefixOf r1 then matchAfterKey ((r1.drop key.length).dropWhile isWS)
  else Option.none

/-- Does a token for `key` start at the head of `l`?  This mirrors the
regex `\{\{\s*KEY\s*\}\}` for every `key` whose first character is not
whitespace (true of the whole token vocabulary), where the greedy `\s*`
consumes exactly the maximal whitespace run.  Returns what follows the
matched token. -/
def matchToken (key : List Char) : List Char → Option (List Char)
  | c1 :: c2 :: rest => if c1 = '{' ∧ c2 = '{' then matchBody key rest else Option.none
  | _ => Option.none

/-- `re.sub` of the token pattern, with fuel: scan left to right, replace
each non-overlapping leftmost match and continue after it.  Fuel at least
the length of the list fully evaluates the scan. -/
def subAllF (key repl : List Char) : Nat → List Char → List Char
  | _, [] => []
  | 0, l => l
  | n + 1, c :: rest =>
    match matchToken key (c :: rest) with
    | some r => repl ++ subAllF key repl n r
    | Option.none => c :: subAllF key repl n rest

/-- `re.sub(r"\{\{\s*" + re.escape(key) + r"\s*\}\}", repl, s)` over
character lists. -/
def subAll (key repl l : List Char) : List Char :=
  subAllF key repl l.length l

/-- The same substitution over strings. -/
def subAllStr (key repl s : String) : String :=
  ⟨subAll key.data repl.data s.data⟩

/-- The placeholder dictionary in insertion order; each entry maps a
braced placeholder to its replacement text. -/
abbrev Placeholders : Type := List (String × String)

/-- The loop body of `replace_text_placeholders` over the placeholder
dictionary: strip each placeholder down to its token name and substitute
its pattern in sequence. -/
def applyPlaceholders (pvs : Placeholders) (s : String) : String :=
  pvs.foldl (fun acc p => subAllStr (stripKey p.1) p.2 acc) s

/-- `"".join(run.text for run in paragraph.runs)`. -/
def concatRuns (runs : List String) : String :=
  runs.foldl (fun a b => a ++ b) ""

/-- One paragraph of `replace_text_placeholders(slide, placeholder_values)`
from `app.py`, a paragraph being its list of run texts: join all runs,
substitute every placeholder in the joined text, and if the paragraph has
any run at all, clear every run and write the substituted text into the
first one. -/
def replaceTextParagraph (pvs : Placeholders) (runs : List String) : List String :=
  let full_text := concatRuns runs
  let new_text := applyPlaceholders pvs full_text
  match runs with
  | [] => []
  | _ :: rest => new_text :: rest.map (fun _ => "")

/-- Whether a token for `key` occurs anywhere in `l`. -/
def containsTok (key : List Char) : List Char → Bool
  | [] => false
  | c :: rest => (matchToken key (c :: rest)).isSome || containsTok key rest

/-- Python `int()` truncation toward zero, on a rational. -/
def pyInt (q : ℚ) : ℤ :=
  if 0 ≤ q then ⌊q⌋ else ⌈q⌉

/-- The scaling arithmetic of `replace_image_placeholders`: a scale factor
`min(target_width / original_width, target_height / original_height)` and
the truncated scaled dimensions handed to `add_picture`.  Python float
division is modelled as exact rational division. -/
def scale_image (ow oh tw th : ℤ) : ℤ × ℤ :=
  let scale : ℚ := min ((tw : ℚ) / (ow : ℚ)) ((th : ℚ) / (oh : ℚ))
  (pyInt ((ow : ℚ) * scale), pyInt ((oh : ℚ) * scale))

/-- `IMAGE_PLACEHOLDERS_ORIG` from `app.py`, in its fixed order. -/
def IMAGE_PLACEHOLDERS_ORIG : List String :=
  ["\x7b\x7bProduct Packshot1\x7d\x7d",
   "\x7b\x7bProduct Lifestyle1\x7d\x7d",
   "\x7b\x7bProduct Lifestyle2\x7d\x7d",
   "\x7b\x7bProduct Lifestyle3\x7d\x7d",
   "\x7b\x7bProduct Lifestyle4\x7d\x7d"]

/-- Is `a` a contiguous sublist of `b`: `a` is a prefix of some suffix. -/
def infixChars (a : List Char) : List Char → Bool
  | [] => a.isEmpty
  | c :: t => a.isPrefixOf (c :: t) || infixChars a t

/-- Python substring containment `a in b`. -/
def pyIn (a b : String) : Bool :=
  infixChars a.data b.data

/-- The `for ph in IMAGE_PLACEHOLDERS_ORIG` loop of
`replace_image_placeholders` for one shape: on the first placeholder whose
normalized name is contained in the shape's normalized text, fetch its URL
(an empty URL or a failed fetch leaves the shape untouched; a successful
fetch inserts a scaled picture and clears the shape's text) and `break`;
placeholders after the first containment hit are never examined.  `fetch`
abstracts `fetch_and_process_image` followed by `Image.open`, returning
the image's (width, height) or `none` on any retrieval failure. -/
def imageLoop (vals : String → String) (fetch : String → Option (ℤ × ℤ))
    (text : String) (tw th : ℤ) : List String → String × Option (ℤ × ℤ)
  | [] => (text, Option.none)
  | ph :: rest =>
    if pyIn (normStr ph) (normStr text) then
      (if vals ph ≠ "" then
        match fetch (vals ph) with
        | some (ow, oh) => ("", some (scale_image ow oh tw th))
        | Option.none => (text, Option.none)
      else (text, Option.none))
    else imageLoop vals fetch text tw th rest

/-- `replace_image_placeholders` for a single shape with text `text` and
placeholder region `tw × th`: the resulting shape text and the picture
dimensions added to the slide, if any. -/
def replace_image_shape (text : String) (tw th : ℤ) (vals : String → String)
    (fetch : String → Option (ℤ × ℤ)) : String × Option (ℤ × ℤ) :=
  imageLoop vals fetch text tw th IMAGE_PLACEHOLDERS_ORIG

/-- The per-item loop of `main` in `app.py`, counting (slides in the output
deck, warnings issued).  `duplicate_slide(prs, template_slide)` runs before
`find_mapping_row`, so the slide counter increments for resolved and
unresolved items alike; an unresolved item adds a warning and `continue`s,
and a resolver exception aborts the run. -/
def mainLoop (mapping_df : List Row) (key : String) : List PyVal → Except PyErr (Nat × Nat)
  | [] => .ok (0, 0)
  | item_no :: rest =>
    match find_mapping_row item_no mapping_df key with
    | .error e => .error e
    | .ok Option.none =>
      match mainLoop mapping_df key rest with
      | .ok (s, w) => .ok (s + 1, w + 1)
      | .error e => .error e
    | .ok (some _) =>
      match mainLoop mapping_df key rest with
      | .ok (s, w) => .ok (s + 1, w)
      | .error e => .error e


/-- The per-character action of `normChars`: U+00A0 becomes a space, a
whitespace character is deleted, anything else is lower-cased. -/
def normCharStep (c : Char) : Option Char :=
  if isWS (if c = '\u00A0' then ' ' else c) then Option.none
  else some (Char.toLower (if c = '\u00A0' then ' ' else c))

/-- `MAPPING_PRODUCT_CODE_KEY` from `app.py`: the normalized name of the
product-code column. -/
def MAPPING_PRODUCT_CODE_KEY : String := normalize_col "\x7b\x7bProduct code\x7d\x7d"

/-- A one-row mapping table used to exercise the resolver concretely. -/
def rowAB12 : Row := [(MAPPING_PRODUCT_CODE_KEY, PyVal.str "AB12")]

/-- A record and a stock table on which both flag columns are populated for
two variants. -/
def rowK1 : Row := [("productkey", PyVal.str "K1")]

def stockK1 : List Row :=
  [[("productkey", PyVal.str "K1"), ("variantname", PyVal.str "Oak"),
    ("rts", PyVal.str "x"), ("mto", PyVal.str "y")],
   [("productkey", PyVal.str "K1"), ("variantname", PyVal.str "Oak"),
    ("rts", PyVal.str "x"), ("mto", PyVal.str "y")],
   [("productkey", PyVal.str "K1"), ("variantname", PyVal.str "Walnut"),
    ("rts", PyVal.str "x"), ("mto", PyVal.str "y")]]

/-- A record whose product key is the integer zero, with a stock row that
genuinely matches it. -/
def rowZero : Row := [("productkey", PyVal.int 0)]

def stockZero : List Row :=
  [[("productkey", PyVal.int 0), ("variantname", PyVal.str "Oak"), ("rts", PyVal.str "x")]]

/-- Is the first character present and not whitespace?  All keys of the
token vocabulary satisfy this; for such keys the maximal-munch matcher
agrees with the regex. -/
def headNonWS : List Char → Bool
  | [] => false
  | c :: _ => !isWS c

-- ===== end of definitions =====

theorem toNat_ofNat_valid (n : Nat) (h : n.isValidChar) : (Char.ofNat n).toNat = n := by
  unfold Char.ofNat
  rw [dif_pos h]
  rfl

theorem isValidChar_of_small (n : Nat) (h : n < 0xd800) : n.isValidChar := Or.inl h

theorem isWS_false_of_codes (d : Char) (h1 : 33 ≤ d.toNat) (h2 : d.toNat ≠ 160) :
    isWS d = false := by
  simp only [isWS, Bool.or_eq_false_iff, decide_eq_false_iff_not]
  refine ⟨⟨⟨⟨⟨⟨?_, ?_⟩, ?_⟩, ?_⟩, ?_⟩, ?_⟩, ?_⟩ <;> intro he <;> subst he <;>
    first
    | exact absurd h1 (by decide)
    | exact h2 (by decide)

theorem isWS_codes (c : Char) (h : isWS c = true) : c.toNat ≤ 32 ∨ c.toNat = 160 := by
  simp only [isWS, Bool.or_eq_true, decide_eq_true_eq] at h
  rcases h with ((((((h | h) | h) | h) | h) | h) | h) <;> subst h <;> decide

theorem toLower_eq_ite (c : Char) :
    Char.toLower c = if c.toNat ≥ 65 ∧ c.toNat ≤ 90 then Char.ofNat (c.toNat + 32) else c := rfl

theorem toUpper_eq_ite (c : Char) :
    Char.toUpper c = if c.toNat ≥ 97 ∧ c.toNat ≤ 122 then Char.ofNat (c.toNat - 32) else c := rfl

theorem isWS_toLower (c : Char) (h : isWS c = false) : isWS (Char.toLower c) = false := by
  by_cases hc : c.toNat ≥ 65 ∧ c.toNat ≤ 90
  · have hval : (Char.ofNat (c.toNat + 32)).toNat = c.toNat + 32 :=
      toNat_ofNat_valid _ (isValidChar_of_small _ (by omega))
    rw [toLower_eq_ite c, if_pos hc]
    exact isWS_false_of_codes _ (by omega) (by omega)
  · rw [toLower_eq_ite c, if_neg hc]
    exact h

theorem toLower_idem (c : Char) : Char.toLower (Char.toLower c) = Char.toLower c := by
  by_cases hc : c.toNat ≥ 65 ∧ c.toNat ≤ 90
  · have hval : (Char.ofNat (c.toNat + 32)).toNat = c.toNat + 32 :=
      toNat_ofNat_valid _ (isValidChar_of_small _ (by omega))
    rw [toLower_eq_ite c, if_pos hc, toLower_eq_ite (Char.ofNat (c.toNat + 32)), hval,
      if_neg (by omega)]
  · rw [toLower_eq_ite c, if_neg hc, toLower_eq_ite c, if_neg hc]

theorem toLower_toUpper (c : Char) : Char.toLower (Char.toUpper c) = Char.toLower c := by
  by_cases hc : c.toNat ≥ 97 ∧ c.toNat ≤ 122
  · have hval : (Char.ofNat (c.toNat - 32)).toNat = c.toNat - 32 :=
      toNat_ofNat_valid _ (isValidChar_of_small _ (by omega))
    rw [toUpper_eq_ite c, if_pos hc]
    rw [toLower_eq_ite (Char.ofNat (c.toNat - 32)), hval, if_pos (by omega)]
    rw [toLower_eq_ite c, if_neg (by omega)]
    rw [show c.toNat - 32 + 32 = c.toNat by omega, Char.ofNat_toNat]
  · rw [toUpper_eq_ite c, if_neg hc]

theorem isWS_toUpper (c : Char) (h : isWS c = false) : isWS (Char.toUpper c) = false := by
  by_cases hc : c.toNat ≥ 97 ∧ c.toNat ≤ 122
  · have hval : (Char.ofNat (c.toNat - 32)).toNat = c.toNat - 32 :=
      toNat_ofNat_valid _ (isValidChar_of_small _ (by omega))
    rw [toUpper_eq_ite c, if_pos hc]
    exact isWS_false_of_codes _ (by omega) (by omega)
  · rw [toUpper_eq_ite c, if_neg hc]
    exact h

theorem toUpper_ne_nbsp (c : Char) (h : c ≠ '\u00A0') : Char.toUpper c ≠ '\u00A0' := by
  by_cases hc : c.toNat ≥ 97 ∧ c.toNat ≤ 122
  · have hval : (Char.ofNat (c.toNat - 32)).toNat = c.toNat - 32 :=
      toNat_ofNat_valid _ (isValidChar_of_small _ (by omega))
    rw [toUpper_eq_ite c, if_pos hc]
    intro he
    have h2 := congrArg Char.toNat he
    rw [hval] at h2
    rw [show ('\u00A0' : Char).toNat = 160 from by decide] at h2
    omega
  · rw [toUpper_eq_ite c, if_neg hc]
    exact h

theorem toUpper_eq_of_ws (c : Char) (h : isWS c = true) : Char.toUpper c = c := by
  have hcodes := isWS_codes c h
  rw [toUpper_eq_ite, if_neg (by omega)]

theorem normChars_eq_filterMap (l : List Char) : normChars l = l.filterMap normCharStep := by
  induction l with
  | nil => rfl
  | cons c t ih =>
    unfold normChars at ih ⊢
    rw [List.map_cons, List.filter_cons]
    by_cases h1 : isWS (if c = '\u00A0' then ' ' else c)
    · rw [if_neg (by rw [h1]; exact Bool.false_ne_true)]
      rw [List.filterMap_cons,
        show normCharStep c = Option.none from by unfold normCharStep; rw [if_pos h1]]
      exact ih
    · rw [if_pos (by rw [eq_false_of_ne_true h1]; rfl)]
      rw [List.map_cons, List.filterMap_cons,
        show normCharStep c = some (Char.toLower (if c = '\u00A0' then ' ' else c)) from by
          unfold normCharStep; rw [if_neg h1]]
      rw [ih]

theorem normCharStep_of_ws (c : Char) (h : isWS c = true) : normCharStep c = Option.none := by
  unfold normCharStep
  by_cases hn : c = '\u00A0'
  · rw [if_pos hn, if_pos (by decide)]
  · rw [if_neg hn, if_pos h]

theorem normCharStep_toUpper (c : Char) : normCharStep (Char.toUpper c) = normCharStep c := by
  by_cases hn : c = '\u00A0'
  · subst hn
    rfl
  · have hn2 : Char.toUpper c ≠ '\u00A0' := toUpper_ne_nbsp c hn
    by_cases hws : isWS c = true
    · rw [toUpper_eq_of_ws c hws]
    · have hws2 : isWS (Char.toUpper c) = false := isWS_toUpper c (eq_false_of_ne_true hws)
      unfold normCharStep
      rw [if_neg hn, if_neg hn2, if_neg (by rw [hws2]; exact Bool.false_ne_true),
        if_neg (by rw [eq_false_of_ne_true hws]; exact Bool.false_ne_true)]
      rw [toLower_toUpper]

theorem normCharStep_of_normal (d : Char) (h1 : isWS d = false) (h2 : Char.toLower d = d) :
    normCharStep d = some d := by
  have hn : d ≠ '\u00A0' := by
    intro he
    rw [he] at h1
    exact absurd h1 (by decide)
  unfold normCharStep
  rw [if_neg hn, if_neg (by rw [h1]; exact Bool.false_ne_true), h2]

theorem mem_normChars_normal (l : List Char) (d : Char) (h : d ∈ normChars l) :
    isWS d = false ∧ Char.toLower d = d := by
  rw [normChars_eq_filterMap] at h
  rcases List.mem_filterMap.1 h with ⟨a, _, ha⟩
  by_cases hws : isWS (if a = '\u00A0' then ' ' else a) = true
  · rw [show normCharStep a = Option.none from by unfold normCharStep; rw [if_pos hws]] at ha
    exact absurd ha (by simp)
  · rw [show normCharStep a = some (Char.toLower (if a = '\u00A0' then ' ' else a)) from by
        unfold normCharStep; rw [if_neg hws]] at ha
    have hd := Option.some.inj ha
    subst hd
    exact ⟨isWS_toLower _ (eq_false_of_ne_true hws), toLower_idem _⟩

theorem filterMap_id_of_some (f : Char → Option Char) (l : List Char)
    (h : ∀ d ∈ l, f d = some d) : l.filterMap f = l := by
  induction l with
  | nil => rfl
  | cons c t ih =>
    rw [List.filterMap_cons, h c (by simp)]
    rw [ih (fun d hd => h d (List.mem_cons_of_mem _ hd))]

theorem normChars_idem (l : List Char) : normChars (normChars l) = normChars l := by
  rw [normChars_eq_filterMap (normChars l)]
  apply filterMap_id_of_some
  intro d hd
  rcases mem_normChars_normal l d hd with ⟨h1, h2⟩
  exact normCharStep_of_normal d h1 h2

theorem normChars_map_toUpper (l : List Char) :
    normChars (l.map Char.toUpper) = normChars l := by
  rw [normChars_eq_filterMap, normChars_eq_filterMap, List.filterMap_map]
  congr 1
  funext c
  exact normCharStep_toUpper c

theorem str_data_append (a b : String) : (a ++ b).data = a.data ++ b.data := by
  cases a
  cases b
  rfl

theorem normChars_append (a b : List Char) :
    normChars (a ++ b) = normChars a ++ normChars b := by
  rw [normChars_eq_filterMap, normChars_eq_filterMap, normChars_eq_filterMap,
    List.filterMap_append]

theorem normChars_ws_single (c : Char) (h : isWS c = true) : normChars [c] = [] := by
  rw [normChars_eq_filterMap]
  simp [List.filterMap_cons, normCharStep_of_ws c h]


/-- Claim C6: the key normalizer is total and deterministic on arbitrary
values (a missing/null value is normalized via its string representation),
idempotent on strings, and insensitive to ASCII case and to whitespace,
with the ordinary space and the non-breaking space erased alike. -/
theorem normalize_text_props :
    (∀ v : PyVal, normalize_text v = normStr (strPy v))
    ∧ (∀ s : String, normStr (normStr s) = normStr s)
    ∧ (∀ s : String, normStr ⟨s.data.map Char.toUpper⟩ = normStr s)
    ∧ (∀ a b : String, normStr (a ++ " " ++ b) = normStr (a ++ b)
        ∧ normStr (a ++ " " ++ b) = normStr (a ++ b)) := by
  refine ⟨fun v => rfl, ?_, ?_, ?_⟩
  · intro s
    unfold normStr
    congr 1
    exact normChars_idem s.data
  · intro s
    unfold normStr
    congr 1
    exact normChars_map_toUpper s.data
  · intro a b
    constructor
    · unfold normStr
      congr 1
      rw [str_data_append, str_data_append, str_data_append]
      rw [show (" " : String).data = [' '] from rfl]
      rw [normChars_append, normChars_append, normChars_append]
      rw [normChars_ws_single ' ' (by decide)]
      simp
    · unfold normStr
      congr 1
      rw [str_data_append, str_data_append, str_data_append]
      rw [show (" " : String).data = [' '] from rfl]
      rw [normChars_append, normChars_append, normChars_append]
      rw [normChars_ws_single ' ' (by decide)]
      simp

theorem scanExact_eq_find (nI key : String) (rows : List Row) :
    scanExact nI key rows
      = rows.find? (fun row => normalize_text (rowGet row key (.str "")) == nI) := by
  induction rows with
  | nil => rfl
  | cons r rs ih =>
    unfold scanExact
    rw [List.find?_cons]
    by_cases h : normalize_text (rowGet r key (.str "")) = nI
    · simp [h]
    · simp only [if_neg h, ih]
      have hb : (normalize_text (rowGet r key (.str "")) == nI) = false := by
        simp [h]
      rw [hb]

theorem scanStem_eq_find (stem key : String) (rows : List Row) :
    scanStem stem key rows
      = rows.find? (fun row => pyStartsWith (normalize_text (rowGet row key (.str ""))) stem) := by
  induction rows with
  | nil => rfl
  | cons r rs ih =>
    unfold scanStem
    rw [List.find?_cons]
    by_cases h : pyStartsWith (normalize_text (rowGet r key (.str ""))) stem = true
    · simp [h]
    · simp only [if_neg h, ih]
      rw [eq_false_of_ne_true h]

/-- Claim C5: the resolver returns the first row (in table order) whose
normalized product code equals the normalized identifier; failing that and
if the identifier contains a hyphen, the first row whose normalized code
starts with the normalized text before the first hyphen; otherwise no row. -/
theorem find_mapping_row_order (s : String) (rows : List Row) (key : String) :
    (∀ r, rows.find? (fun row => normalize_text (rowGet row key (.str "")) == normStr s) = some r →
        find_mapping_row (.str s) rows key = .ok (some r))
    ∧ (rows.find? (fun row => normalize_text (rowGet row key (.str "")) == normStr s)
          = Option.none →
        '-' ∈ s.data →
        find_mapping_row (.str s) rows key =
          .ok (rows.find? (fun row =>
            pyStartsWith (normalize_text (rowGet row key (.str ""))) (normStr (beforeHyphen s)))))
    ∧ (rows.find? (fun row => normalize_text (rowGet row key (.str "")) == normStr s)
          = Option.none →
        '-' ∉ s.data →
        find_mapping_row (.str s) rows key = .ok Option.none) := by
  refine ⟨?_, ?_, ?_⟩
  · intro r hr
    unfold find_mapping_row
    dsimp only
    rw [scanExact_eq_find]
    simp only [show normalize_text (PyVal.str s) = normStr s from rfl]
    rw [hr]
  · intro hnone hmem
    unfold find_mapping_row
    dsimp only
    rw [scanExact_eq_find]
    simp only [show normalize_text (PyVal.str s) = normStr s from rfl,
      show strPy (PyVal.str s) = s from rfl]
    rw [hnone]
    simp only [if_pos hmem]
    rw [scanStem_eq_find]
  · intro hnone hmem
    unfold find_mapping_row
    dsimp only
    rw [scanExact_eq_find]
    simp only [show normalize_text (PyVal.str s) = normStr s from rfl,
      show strPy (PyVal.str s) = s from rfl]
    rw [hnone]
    simp only [if_neg hmem]


/-- Witness for `find_mapping_row_order`: `"AB12-X"` misses the exact pass
against a table whose only code is `"AB12"` and resolves through the
prefix-fallback pass to that row. -/
theorem find_mapping_row_order_witness :
    find_mapping_row (.str "AB12-X") [rowAB12] MAPPING_PRODUCT_CODE_KEY = .ok (some rowAB12) := by
  have h := (find_mapping_row_order "AB12-X" [rowAB12] MAPPING_PRODUCT_CODE_KEY).2.1
    (by rfl) (by decide)
  rw [h]
  rfl

/-- Claim C2 (code bug): on a non-string identifier whose string form
contains a hyphen, a resolver miss in the exact pass reaches
`item_no.split("-")` and raises `AttributeError` instead of returning
"not found" — while the string identifier with the same text returns
`None` normally. -/
theorem find_mapping_row_nonstring_raises :
    find_mapping_row (.int (-5)) [rowAB12] MAPPING_PRODUCT_CODE_KEY = .error .attributeError
    ∧ find_mapping_row (.str "-5") [rowAB12] MAPPING_PRODUCT_CODE_KEY = .ok (some rowAB12) := by
  constructor
  · rfl
  · rfl

theorem find_mapping_row_str_ok (s : String) (rows : List Row) (key : String) :
    ∃ o, find_mapping_row (.str s) rows key = .ok o := by
  unfold find_mapping_row
  dsimp only
  cases scanExact (normalize_text (.str s)) key rows with
  | some r => exact ⟨some r, rfl⟩
  | none =>
    by_cases h : '-' ∈ (strPy (PyVal.str s)).data
    · exact ⟨_, by rw [if_pos h]⟩
    · exact ⟨Option.none, by rw [if_neg h]⟩

/-- Claim C1 (code bug): `duplicate_slide` runs before the resolution
check, so with two input items of which the second is unresolved the run
produces two slides and one warning — not one slide; in general a run over
string items always emits one slide per item, resolved or not. -/
theorem mainLoop_slide_count :
    mainLoop [rowAB12] MAPPING_PRODUCT_CODE_KEY [PyVal.str "AB12", PyVal.str "ZZZ"] = .ok (2, 1)
    ∧ ∀ (mapping : List Row) (key : String) (items : List String),
        ∃ w, mainLoop mapping key (items.map PyVal.str) = .ok (items.length, w) := by
  constructor
  · rfl
  · intro mapping key items
    induction items with
    | nil => exact ⟨0, rfl⟩
    | cons s t ih =>
      rcases ih with ⟨w, hw⟩
      rcases find_mapping_row_str_ok s mapping key with ⟨o, ho⟩
      cases o with
      | none =>
        refine ⟨w + 1, ?_⟩
        unfold mainLoop
        rw [List.map_cons]
        dsimp only
        rw [ho]
        dsimp only
        rw [hw]
        rfl
      | some r =>
        refine ⟨w, ?_⟩
        unfold mainLoop
        rw [List.map_cons]
        dsimp only
        rw [ho]
        dsimp only
        rw [hw]
        rfl


theorem dedupSeen_sublist (l : List String) : ∀ seen, List.Sublist (dedupSeen seen l) l := by
  induction l with
  | nil => intro seen; exact List.Sublist.refl []
  | cons c t ih =>
    intro seen
    unfold dedupSeen
    by_cases hc : c ∈ seen
    · rw [if_pos hc]
      exact List.Sublist.cons c (ih seen)
    · rw [if_neg hc]
      exact List.Sublist.cons₂ c (ih (c :: seen))

theorem mem_dedupSeen (l : List String) :
    ∀ seen a, a ∈ dedupSeen seen l ↔ (a ∈ l ∧ a ∉ seen) := by
  induction l with
  | nil => intro seen a; simp [dedupSeen]
  | cons c t ih =>
    intro seen a
    unfold dedupSeen
    by_cases hc : c ∈ seen
    · rw [if_pos hc, ih]
      constructor
      · rintro ⟨h1, h2⟩
        exact ⟨List.mem_cons_of_mem _ h1, h2⟩
      · rintro ⟨h1, h2⟩
        rcases List.mem_cons.1 h1 with he | ht
        · subst he
          exact absurd hc h2
        · exact ⟨ht, h2⟩
    · rw [if_neg hc]
      constructor
      · intro h
        rcases List.mem_cons.1 h with he | ht
        · subst he
          exact ⟨List.mem_cons_self _ _, hc⟩
        · rcases (ih (c :: seen) a).1 ht with ⟨h1, h2⟩
          refine ⟨List.mem_cons_of_mem _ h1, fun hs => h2 (List.mem_cons_of_mem _ hs)⟩
      · rintro ⟨h1, h2⟩
        rcases List.mem_cons.1 h1 with he | ht
        · subst he
          exact List.mem_cons_self _ _
        · by_cases hac : a = c
          · subst hac
            exact List.mem_cons_self _ _
          · refine List.mem_cons_of_mem _ ((ih (c :: seen) a).2 ⟨ht, ?_⟩)
            intro hs
            rcases List.mem_cons.1 hs with he2 | hs2
            · exact hac he2
            · exact h2 hs2

theorem dedupSeen_nodup (l : List String) : ∀ seen, (dedupSeen seen l).Nodup := by
  induction l with
  | nil => intro seen; exact List.nodup_nil
  | cons c t ih =>
    intro seen
    unfold dedupSeen
    by_cases hc : c ∈ seen
    · rw [if_pos hc]
      exact ih seen
    · rw [if_neg hc]
      refine List.Nodup.cons ?_ (ih (c :: seen))
      intro hmem
      exact ((mem_dedupSeen t (c :: seen) c).1 hmem).2 (List.mem_cons_self _ _)

theorem dedupFirst_props (xs : List String) :
    (dedupFirst xs).Nodup ∧ List.Sublist (dedupFirst xs) xs ∧ ∀ a, a ∈ dedupFirst xs ↔ a ∈ xs := by
  refine ⟨dedupSeen_nodup xs [], dedupSeen_sublist xs [], fun a => ?_⟩
  rw [dedupFirst, mem_dedupSeen]
  simp

/-- Claim C4 (amended): the ready-to-ship and made-to-order texts come
from one algorithm parameterized only by the flag column; the final
separator is the same comma-and-space for both. -/
theorem stock_rts_mto_same_algorithm (row : Row) (stock : List Row) :
    process_stock_rts_alternative row stock = process_stock_generic "rts" ", " row stock
    ∧ process_stock_mto_alternative row stock = process_stock_generic "mto" ", " row stock :=
  ⟨rfl, rfl⟩

/-- Counterexample to claim C4 as stated: the two functions do not use
different final separator conventions — on the same record and table both
produce the identical string, joined with a comma and a space. -/
theorem stock_rts_mto_identical_separator :
    process_stock_rts_alternative rowK1 stockK1 = "Oak, Walnut"
    ∧ process_stock_mto_alternative rowK1 stockK1 = "Oak, Walnut"
    ∧ process_stock_rts_alternative rowK1 stockK1 = process_stock_mto_alternative rowK1 stockK1 :=
  ⟨rfl, rfl, rfl⟩

/-- Claim C7 (amended): a falsy (empty string or zero) or null product key
yields the empty string; otherwise the result joins with a comma-and-space
the kept variant names, deduplicated preserving first-seen order (no
sorting): the deduplicated list is duplicate-free, an ordered sublist of the
extracted names, and has the same members. -/
theorem process_stock_rts_characterization (row : Row) (stock : List Row) :
    (pyTruthy (rowGet row "productkey" (.str "")) = false
        ∨ pyIsna (rowGet row "productkey" (.str "")) = true →
      process_stock_rts_alternative row stock = "")
    ∧ (pyTruthy (rowGet row "productkey" (.str "")) = true →
        pyIsna (rowGet row "productkey" (.str "")) = false →
        process_stock_rts_alternative row stock
          = String.intercalate ", "
              (dedupFirst (keptVariantNames "rts"
                (normalize_text (rowGet row "productkey" (.str ""))) stock)))
    ∧ (∀ xs : List String,
        (dedupFirst xs).Nodup ∧ List.Sublist (dedupFirst xs) xs ∧ ∀ a, a ∈ dedupFirst xs ↔ a ∈ xs) := by
  refine ⟨?_, ?_, dedupFirst_props⟩
  · intro h
    unfold process_stock_rts_alternative
    dsimp only
    rcases h with h | h
    · rw [if_pos (by rw [h]; rfl)]
    · rw [if_pos (by rw [h]; simp)]
  · intro h1 h2
    unfold process_stock_rts_alternative
    dsimp only
    rw [if_neg (by rw [h1, h2]; simp)]
    by_cases hf1 : (stock.filter (fun r =>
        normalize_text (rowGet r "productkey" .nan)
          = normalize_text (rowGet row "productkey" (.str "")))).isEmpty
    · rw [if_pos hf1]
      have he : stock.filter (fun r =>
          normalize_text (rowGet r "productkey" .nan)
            = normalize_text (rowGet row "productkey" (.str ""))) = [] :=
        List.isEmpty_iff.1 hf1
      unfold keptVariantNames
      rw [he]
      rfl
    · rw [if_neg hf1]
      by_cases hf2 : ((stock.filter (fun r =>
            normalize_text (rowGet r "productkey" .nan)
              = normalize_text (rowGet row "productkey" (.str "")))).filter
          (fun r => !pyIsna (rowGet r "rts" .nan) && pyNeEmptyStr (rowGet r "rts" .nan))).isEmpty
      · rw [if_pos hf2]
        have he2 := List.isEmpty_iff.1 hf2
        unfold keptVariantNames
        rw [he2]
        rfl
      · rw [if_neg hf2]
        rfl

/-- Counterexample to claim C7 as stated: with product key `0` the kept set
is non-empty (its normalized key `"0"` matches the stock row, whose flag is
set), so the claim predicts `"Oak"`, but the code's truthiness guard
short-circuits the zero key to the empty string. -/
theorem process_stock_rts_zero_key :
    process_stock_rts_alternative rowZero stockZero = ""
    ∧ claimAggregateRts rowZero stockZero = "Oak"
    ∧ ("" : String) ≠ "Oak" := by
  refine ⟨rfl, rfl, by decide⟩

/-- Witness for `process_stock_rts_characterization`: a truthy, non-null
key keeps the matching rows, and `["Oak", "Oak", "Walnut"]` collapses to
`"Oak, Walnut"` in first-seen order. -/
theorem process_stock_rts_characterization_witness :
    (pyTruthy (rowGet rowK1 "productkey" (.str "")) = true
      ∧ pyIsna (rowGet rowK1 "productkey" (.str "")) = false)
    ∧ process_stock_rts_alternative rowK1 stockK1
        = String.intercalate ", "
            (dedupFirst (keptVariantNames "rts"
              (normalize_text (rowGet rowK1 "productkey" (.str ""))) stockK1))
    ∧ process_stock_rts_alternative rowK1 stockK1 = "Oak, Walnut" := by
  refine ⟨⟨rfl, rfl⟩, (process_stock_rts_characterization rowK1 stockK1).2.1 rfl rfl, rfl⟩


theorem length_dropWhile_le (p : Char → Bool) (l : List Char) :
    (l.dropWhile p).length ≤ l.length := by
  induction l with
  | nil => simp
  | cons c t ih =>
    rw [List.dropWhile_cons]
    split
    · exact Nat.le_succ_of_le ih
    · simp

theorem matchAfterKey_some (l r : List Char) (h : matchAfterKey l = some r) :
    r.length + 2 = l.length := by
  match l with
  | [] => exact absurd h (by simp [matchAfterKey])
  | [d] => exact absurd h (by simp [matchAfterKey])
  | d1 :: d2 :: t =>
    simp only [matchAfterKey] at h
    split at h
    · have he := Option.some.inj h
      subst he
      simp
    · exact absurd h (by simp)

theorem matchToken_length_lt (key l r : List Char) (h : matchToken key l = some r) :
    r.length < l.length := by
  match l with
  | [] => simp [matchToken] at h
  | [c] => simp [matchToken] at h
  | c1 :: c2 :: rest =>
    simp only [matchToken] at h
    split at h
    · simp only [matchBody] at h
      split at h
      · have h2 := matchAfterKey_some _ _ h
        have d1 : (((rest.dropWhile isWS).drop key.length).dropWhile isWS).length
            ≤ ((rest.dropWhile isWS).drop key.length).length :=
          length_dropWhile_le _ _
        have d2 : ((rest.dropWhile isWS).drop key.length).length
            = (rest.dropWhile isWS).length - key.length := List.length_drop _ _
        have d3 : (rest.dropWhile isWS).length ≤ rest.length := length_dropWhile_le _ _
        simp only [List.length_cons]
        omega
      · exact absurd h (by simp)
    · exact absurd h (by simp)

theorem subAllF_succ_cons (key repl : List Char) (n : Nat) (c : Char) (rest : List Char) :
    subAllF key repl (n + 1) (c :: rest)
      = match matchToken key (c :: rest) with
        | some r => repl ++ subAllF key repl n r
        | Option.none => c :: subAllF key repl n rest := rfl

theorem subAllF_congr (key repl : List Char) :
    ∀ (n : Nat) (l : List Char) (m : Nat), l.length ≤ n → l.length ≤ m →
      subAllF key repl n l = subAllF key repl m l := by
  intro n
  induction n with
  | zero =>
    intro l m h1 _
    have : l = [] := List.length_eq_zero.1 (Nat.le_zero.1 h1)
    subst this
    cases m <;> rfl
  | succ n ih =>
    intro l m h1 h2
    cases l with
    | nil => cases m <;> rfl
    | cons c rest =>
      cases m with
      | zero => simp at h2
      | succ m' =>
        rw [subAllF_succ_cons, subAllF_succ_cons]
        cases hmt : matchToken key (c :: rest) with
        | some r =>
          have hlt := matchToken_length_lt key (c :: rest) r hmt
          have hn : r.length ≤ n := by
            have := List.length_cons c rest
            omega
          have hm : r.length ≤ m' := by
            have := List.length_cons c rest
            omega
          dsimp only
          rw [ih r m' hn hm]
        | none =>
          have hn : rest.length ≤ n := by
            have := List.length_cons c rest
            omega
          have hm : rest.length ≤ m' := by
            have := List.length_cons c rest
            omega
          dsimp only
          rw [ih rest m' hn hm]

theorem subAll_cons_of_match (key repl : List Char) (c : Char) (rest r : List Char)
    (h : matchToken key (c :: rest) = some r) :
    subAll key repl (c :: rest) = repl ++ subAll key repl r := by
  show subAllF key repl (rest.length + 1) (c :: rest) = _
  rw [subAllF_succ_cons, h]
  have hlt := matchToken_length_lt key (c :: rest) r h
  dsimp only
  rw [subAllF_congr key repl rest.length r r.length
    (by simp only [List.length_cons] at hlt; omega) (Nat.le_refl _)]
  rfl

theorem subAll_cons_of_nomatch (key repl : List Char) (c : Char) (rest : List Char)
    (h : matchToken key (c :: rest) = Option.none) :
    subAll key repl (c :: rest) = c :: subAll key repl rest := by
  show subAllF key repl (rest.length + 1) (c :: rest) = _
  rw [subAllF_succ_cons, h]
  dsimp only
  rw [subAllF_congr key repl rest.length rest rest.length (Nat.le_refl _) (Nat.le_refl _)]
  rfl

theorem matchToken_head_ne (key : List Char) (c : Char) (l : List Char) (hc : c ≠ '{') :
    matchToken key (c :: l) = Option.none := by
  cases l with
  | nil => rfl
  | cons c2 t =>
    simp only [matchToken]
    rw [if_neg (fun hand => hc hand.1)]

theorem subAll_append_no_brace (key repl pre l : List Char) (hpre : '{' ∉ pre) :
    subAll key repl (pre ++ l) = pre ++ subAll key repl l := by
  induction pre with
  | nil => simp
  | cons c p ih =>
    have hc : c ≠ '{' := fun he => hpre (he ▸ List.mem_cons_self _ _)
    have hp : '{' ∉ p := fun hm => hpre (List.mem_cons_of_mem _ hm)
    rw [List.cons_append, subAll_cons_of_nomatch key repl c _ (matchToken_head_ne key c _ hc),
      ih hp, List.cons_append]

theorem isPrefixOf_self_append (a b : List Char) : a.isPrefixOf (a ++ b) = true := by
  rw [List.isPrefixOf_iff_prefix]
  exact List.prefix_append a b

theorem dropWhile_ws_head (key : List Char) (hk : headNonWS key = true) (t : List Char) :
    (key ++ t).dropWhile isWS = key ++ t := by
  cases key with
  | nil => exact absurd hk (by simp [headNonWS])
  | cons k0 kt =>
    unfold headNonWS at hk
    rw [List.cons_append, List.dropWhile_cons, if_neg (by simp_all)]

theorem matchToken_token (key ws1 ws2 post : List Char) (hk : headNonWS key = true)
    (h1 : ∀ c ∈ ws1, isWS c = true) (h2 : ∀ c ∈ ws2, isWS c = true) :
    matchToken key ('{' :: '{' :: (ws1 ++ key ++ ws2 ++ ('}' :: '}' :: post))) = some post := by
  have e1 : ∀ rest : List Char, matchToken key ('{' :: '{' :: rest) = matchBody key rest := by
    intro rest
    simp [matchToken]
  rw [e1]
  simp only [matchBody]
  rw [List.append_assoc, List.append_assoc]
  rw [List.dropWhile_append_of_pos h1]
  rw [dropWhile_ws_head key hk]
  rw [if_pos (isPrefixOf_self_append key _)]
  rw [List.drop_left]
  rw [List.dropWhile_append_of_pos h2]
  rw [List.dropWhile_cons, if_neg (by decide)]
  simp [matchAfterKey]

theorem subAll_token (key repl pre ws1 ws2 post : List Char) (hk : headNonWS key = true)
    (h1 : ∀ c ∈ ws1, isWS c = true) (h2 : ∀ c ∈ ws2, isWS c = true) (hpre : '{' ∉ pre) :
    subAll key repl (pre ++ '{' :: '{' :: (ws1 ++ key ++ ws2 ++ ('}' :: '}' :: post)))
      = pre ++ repl ++ subAll key repl post := by
  rw [subAll_append_no_brace key repl pre _ hpre]
  rw [subAll_cons_of_match key repl _ _ post (matchToken_token key ws1 ws2 post hk h1 h2)]
  rw [List.append_assoc]

theorem subAll_of_not_contains (key repl l : List Char) (h : containsTok key l = false) :
    subAll key repl l = l := by
  induction l with
  | nil => rfl
  | cons c rest ih =>
    unfold containsTok at h
    rw [Bool.or_eq_false_iff] at h
    cases hmt : matchToken key (c :: rest) with
    | some r =>
      rw [hmt] at h
      simp at h
    | none =>
      rw [subAll_cons_of_nomatch key repl c rest hmt, ih h.2]


theorem str_empty_append (t : String) : "" ++ t = t := by
  cases t
  rfl

theorem str_append_empty (t : String) : t ++ "" = t := by
  cases t with
  | mk d =>
    show String.mk (d ++ []) = String.mk d
    rw [List.append_nil]

theorem str_append_assoc (a b c : String) : (a ++ b) ++ c = a ++ (b ++ c) := by
  cases a with
  | mk da =>
    cases b with
    | mk db =>
      cases c with
      | mk dc =>
        show String.mk ((da ++ db) ++ dc) = String.mk (da ++ (db ++ dc))
        rw [List.append_assoc]

theorem concat_foldl (l : List String) :
    ∀ a : String, l.foldl (fun x y => x ++ y) a = a ++ l.foldl (fun x y => x ++ y) "" := by
  induction l with
  | nil =>
    intro a
    exact (str_append_empty a).symm
  | cons r t ih =>
    intro a
    rw [List.foldl_cons, List.foldl_cons, ih (a ++ r), ih ("" ++ r), str_empty_append,
      str_append_assoc]

theorem concatRuns_cons (r : String) (l : List String) :
    concatRuns (r :: l) = r ++ concatRuns l := by
  unfold concatRuns
  rw [List.foldl_cons, concat_foldl l ("" ++ r), str_empty_append]

theorem concatRuns_replicate_empty (n : Nat) : concatRuns (List.replicate n "") = "" := by
  induction n with
  | zero => rfl
  | succ k ih => rw [List.replicate_succ, concatRuns_cons, ih, str_append_empty]

theorem concatRuns_first (t : String) (n : Nat) :
    concatRuns (t :: List.replicate n "") = t := by
  rw [concatRuns_cons, concatRuns_replicate_empty, str_append_empty]

theorem map_const_replicate (l : List String) :
    l.map (fun _ => ("" : String)) = List.replicate l.length "" := by
  induction l with
  | nil => rfl
  | cons r t ih => rw [List.map_cons, ih, List.length_cons, List.replicate_succ]

theorem replaceTextParagraph_eq (pvs : Placeholders) (runs : List String) (h : runs ≠ []) :
    replaceTextParagraph pvs runs
      = applyPlaceholders pvs (concatRuns runs) :: List.replicate (runs.length - 1) "" := by
  cases runs with
  | nil => exact absurd rfl h
  | cons r rest =>
    unfold replaceTextParagraph
    dsimp only
    rw [map_const_replicate]
    rfl

theorem subAllStr_id (key repl s : String) (h : containsTok key.data s.data = false) :
    subAllStr key repl s = s := by
  unfold subAllStr
  rw [subAll_of_not_contains key.data repl.data s.data h]

theorem applyPlaceholders_id (pvs : Placeholders) (s : String)
    (h : ∀ kv ∈ pvs, containsTok (stripKey kv.1).data s.data = false) :
    applyPlaceholders pvs s = s := by
  induction pvs with
  | nil => rfl
  | cons kv t ih =>
    unfold applyPlaceholders
    rw [List.foldl_cons]
    rw [subAllStr_id _ _ _ (h kv (List.mem_cons_self _ _))]
    exact ih (fun kv2 hm => h kv2 (List.mem_cons_of_mem _ hm))

/-- Claim C8: for a paragraph whose runs jointly contain a token, the pass
substitutes on the concatenation of all runs (so tokens split across runs
are found), a token with any inner whitespace around a vocabulary-shaped
key is replaced wholesale by its value, the substituted joined text lands
in the first run with the rest cleared; concretely, the split-run and the
irregular-spacing examples of the spec both substitute. -/
theorem paragraph_token_substitution :
    (∀ (pvs : Placeholders) (runs : List String), runs ≠ [] →
      replaceTextParagraph pvs runs
        = applyPlaceholders pvs (concatRuns runs) :: List.replicate (runs.length - 1) "")
    ∧ (∀ key repl pre ws1 ws2 post : List Char,
        headNonWS key = true → (∀ c ∈ ws1, isWS c = true) → (∀ c ∈ ws2, isWS c = true) →
        '{' ∉ pre →
        subAll key repl (pre ++ '{' :: '{' :: (ws1 ++ key ++ ws2 ++ ('}' :: '}' :: post)))
          = pre ++ repl ++ subAll key repl post)
    ∧ replaceTextParagraph [("\x7b\x7bProduct name\x7d\x7d", "X")]
        ["\x7b\x7bProd", "uct name\x7d\x7d"] = ["X", ""]
    ∧ subAllStr "Product name" "X" "\x7b\x7b  Product name  \x7d\x7d" = "X" := by
  refine ⟨replaceTextParagraph_eq, ?_, rfl, rfl⟩
  intro key repl pre ws1 ws2 post hk h1 h2 hpre
  exact subAll_token key repl pre ws1 ws2 post hk h1 h2 hpre

/-- Witness for `paragraph_token_substitution`: the general token lemma
applied to the key `"Product name"`, replacement `"X"`, a brace-free
context and irregular inner spacing. -/
theorem paragraph_token_substitution_witness :
    subAll ("Product name").data ("X").data
        (("ab").data ++ '{' :: '{' :: ([' '] ++ ("Product name").data ++ [' ', ' ']
          ++ ('}' :: '}' :: ("cd").data)))
      = ("ab").data ++ ("X").data ++ subAll ("Product name").data ("X").data ("cd").data :=
  (paragraph_token_substitution).2.1 ("Product name").data ("X").data ("ab").data
    [' '] [' ', ' '] ("cd").data (by decide) (by decide) (by decide) (by decide)

/-- Counterexample to claim C3 as stated: a paragraph with runs
`["ab", "cd"]` contains no token, yet the pass still collapses its run
structure, writing the joined text into the first run and clearing the
second. -/
theorem replace_text_tokenfree_collapse :
    replaceTextParagraph [("\x7b\x7bProduct name\x7d\x7d", "X")] ["ab", "cd"] = ["abcd", ""]
    ∧ (["abcd", ""] : List String) ≠ ["ab", "cd"]
    ∧ containsTok (stripKey "\x7b\x7bProduct name\x7d\x7d").data ("abcd").data = false := by
  exact ⟨rfl, by decide, by decide⟩

/-- Claim C3 (amended): the pass leaves a run-less paragraph alone and
leaves the concatenated text of a token-free paragraph unchanged, but the
run-collapsing applies to every paragraph that has at least one run,
whether or not it contains a token. -/
theorem replace_text_collapse_characterization :
    (∀ pvs : Placeholders, replaceTextParagraph pvs [] = [])
    ∧ (∀ (pvs : Placeholders) (runs : List String), runs ≠ [] →
        replaceTextParagraph pvs runs
          = applyPlaceholders pvs (concatRuns runs) :: List.replicate (runs.length - 1) "")
    ∧ (∀ (pvs : Placeholders) (runs : List String),
        (∀ kv ∈ pvs, containsTok (stripKey kv.1).data (concatRuns runs).data = false) →
        concatRuns (replaceTextParagraph pvs runs) = concatRuns runs) := by
  refine ⟨fun pvs => rfl, replaceTextParagraph_eq, ?_⟩
  intro pvs runs h
  cases runs with
  | nil => rfl
  | cons r rest =>
    rw [replaceTextParagraph_eq pvs (r :: rest) (by simp), concatRuns_first]
    exact applyPlaceholders_id pvs _ h

/-- Witness for `replace_text_collapse_characterization`: on the token-free
paragraph `["ab", "cd"]` the concatenated text is preserved. -/
theorem replace_text_collapse_characterization_witness :
    (∀ kv ∈ ([("\x7b\x7bProduct name\x7d\x7d", "X")] : Placeholders),
        containsTok (stripKey kv.1).data (concatRuns ["ab", "cd"]).data = false)
    ∧ concatRuns (replaceTextParagraph [("\x7b\x7bProduct name\x7d\x7d", "X")] ["ab", "cd"])
        = concatRuns ["ab", "cd"] :=
  ⟨by decide, (replace_text_collapse_characterization).2.2 _ _ (by decide)⟩


theorem imageLoop_spec (vals : String → String) (fetch : String → Option (ℤ × ℤ))
    (text : String) (tw th : ℤ) :
    ∀ phs : List String,
      (phs.find? (fun ph => pyIn (normStr ph) (normStr text)) = Option.none →
        imageLoop vals fetch text tw th phs = (text, Option.none))
      ∧ (∀ ph0, phs.find? (fun ph => pyIn (normStr ph) (normStr text)) = some ph0 →
          (vals ph0 = "" → imageLoop vals fetch text tw th phs = (text, Option.none))
          ∧ (vals ph0 ≠ "" → fetch (vals ph0) = Option.none →
              imageLoop vals fetch text tw th phs = (text, Option.none))
          ∧ (∀ ow oh, vals ph0 ≠ "" → fetch (vals ph0) = some (ow, oh) →
              imageLoop vals fetch text tw th phs = ("", some (scale_image ow oh tw th)))) := by
  intro phs
  induction phs with
  | nil => exact ⟨fun _ => rfl, fun ph0 h => by simp at h⟩
  | cons q rest ih =>
    by_cases hq : pyIn (normStr q) (normStr text) = true
    · constructor
      · intro hn
        simp only [List.find?_cons, hq] at hn
        exact absurd hn (by simp)
      · intro ph0 hs
        simp only [List.find?_cons, hq] at hs
        have he : q = ph0 := Option.some.inj hs
        subst he
        refine ⟨?_, ?_, ?_⟩
        · intro hv
          unfold imageLoop
          rw [if_pos hq, if_neg (fun hne => hne hv)]
        · intro hv hf
          unfold imageLoop
          rw [if_pos hq, if_pos hv, hf]
        · intro ow oh hv hf
          unfold imageLoop
          rw [if_pos hq, if_pos hv, hf]
    · have hqf : pyIn (normStr q) (normStr text) = false := eq_false_of_ne_true hq
      constructor
      · intro hn
        simp only [List.find?_cons, hqf] at hn
        unfold imageLoop
        rw [if_neg (by simp [hqf])]
        exact (ih).1 hn
      · intro ph0 hs
        simp only [List.find?_cons, hqf] at hs
        have hrec := (ih).2 ph0 hs
        refine ⟨?_, ?_, ?_⟩
        · intro hv
          unfold imageLoop
          rw [if_neg (by simp [hqf])]
          exact hrec.1 hv
        · intro hv hf
          unfold imageLoop
          rw [if_neg (by simp [hqf])]
          exact hrec.2.1 hv hf
        · intro ow oh hv hf
          unfold imageLoop
          rw [if_neg (by simp [hqf])]
          exact hrec.2.2 ow oh hv hf

/-- Claim C10: a shape is processed for at most one image token — the
first placeholder of the fixed vocabulary order whose normalized name is
contained in the shape's normalized text — and failure is atomic: with no
containment hit, an empty URL, or a failed fetch, the shape's text is
unchanged and no picture is added; only a successful fetch clears the text
and adds exactly one scaled picture. -/
theorem image_shape_at_most_one (text : String) (tw th : ℤ) (vals : String → String)
    (fetch : String → Option (ℤ × ℤ)) :
    (IMAGE_PLACEHOLDERS_ORIG.find? (fun ph => pyIn (normStr ph) (normStr text)) = Option.none →
      replace_image_shape text tw th vals fetch = (text, Option.none))
    ∧ (∀ ph0,
        IMAGE_PLACEHOLDERS_ORIG.find? (fun ph => pyIn (normStr ph) (normStr text)) = some ph0 →
        (vals ph0 = "" → replace_image_shape text tw th vals fetch = (text, Option.none))
        ∧ (vals ph0 ≠ "" → fetch (vals ph0) = Option.none →
            replace_image_shape text tw th vals fetch = (text, Option.none))
        ∧ (∀ ow oh, vals ph0 ≠ "" → fetch (vals ph0) = some (ow, oh) →
            replace_image_shape text tw th vals fetch = ("", some (scale_image ow oh tw th)))) :=
  imageLoop_spec vals fetch text tw th IMAGE_PLACEHOLDERS_ORIG

/-- Witness for `image_shape_at_most_one`: the packshot placeholder is the
first containment hit in its own shape text, and a failed fetch leaves the
text (token included) unchanged with no picture. -/
theorem image_shape_at_most_one_witness :
    (IMAGE_PLACEHOLDERS_ORIG.find?
        (fun ph => pyIn (normStr ph) (normStr "\x7b\x7bProduct Packshot1\x7d\x7d"))
      = some "\x7b\x7bProduct Packshot1\x7d\x7d")
    ∧ replace_image_shape "\x7b\x7bProduct Packshot1\x7d\x7d" 300 300 (fun _ => "u")
        (fun _ => Option.none)
      = ("\x7b\x7bProduct Packshot1\x7d\x7d", Option.none) := by
  refine ⟨by decide, ?_⟩
  exact ((image_shape_at_most_one "\x7b\x7bProduct Packshot1\x7d\x7d" 300 300 (fun _ => "u")
    (fun _ => Option.none)).2 "\x7b\x7bProduct Packshot1\x7d\x7d" (by decide)).2.1
    (by decide) rfl

/-- Claim C9 (amended): with scale factor s = min(W/w, H/h) computed in
exact arithmetic, the inserted dimensions are the truncations
(int(w*s), int(h*s)); each fits the bounding box; the scaled pair preserves
the aspect ratio exactly before truncation; the 800×400 image in a 300×300
region is inserted at exactly (300, 150); and on a successful fetch the
shape's text is cleared. -/
theorem scale_image_characterization (ow oh tw th : ℤ)
    (hw : 0 < ow) (hh : 0 < oh) (htw : 0 < tw) (hth : 0 < th) :
    (scale_image ow oh tw th
        = (⌊(ow : ℚ) * min ((tw : ℚ) / (ow : ℚ)) ((th : ℚ) / (oh : ℚ))⌋,
           ⌊(oh : ℚ) * min ((tw : ℚ) / (ow : ℚ)) ((th : ℚ) / (oh : ℚ))⌋))
    ∧ (scale_image ow oh tw th).1 ≤ tw
    ∧ (scale_image ow oh tw th).2 ≤ th
    ∧ ((ow : ℚ) * min ((tw : ℚ) / (ow : ℚ)) ((th : ℚ) / (oh : ℚ))) * (oh : ℚ)
        = ((oh : ℚ) * min ((tw : ℚ) / (ow : ℚ)) ((th : ℚ) / (oh : ℚ))) * (ow : ℚ)
    ∧ scale_image 800 400 300 300 = (300, 150)
    ∧ replace_image_shape "\x7b\x7bProduct Packshot1\x7d\x7d" 300 300 (fun _ => "u")
        (fun _ => some (800, 400)) = ("", some (300, 150)) := by
  have how : (0 : ℚ) < (ow : ℚ) := by exact_mod_cast hw
  have hoh : (0 : ℚ) < (oh : ℚ) := by exact_mod_cast hh
  have htw2 : (0 : ℚ) < (tw : ℚ) := by exact_mod_cast htw
  have hth2 : (0 : ℚ) < (th : ℚ) := by exact_mod_cast hth
  have hs : (0 : ℚ) ≤ min ((tw : ℚ) / (ow : ℚ)) ((th : ℚ) / (oh : ℚ)) :=
    le_of_lt (lt_min (div_pos htw2 how) (div_pos hth2 hoh))
  have e : scale_image ow oh tw th
      = (⌊(ow : ℚ) * min ((tw : ℚ) / (ow : ℚ)) ((th : ℚ) / (oh : ℚ))⌋,
         ⌊(oh : ℚ) * min ((tw : ℚ) / (ow : ℚ)) ((th : ℚ) / (oh : ℚ))⌋) := by
    unfold scale_image pyInt
    dsimp only
    rw [if_pos (mul_nonneg (le_of_lt how) hs), if_pos (mul_nonneg (le_of_lt hoh) hs)]
  have h800 : scale_image 800 400 300 300 = (300, 150) := by
    unfold scale_image pyInt
    norm_num [min_def]
  refine ⟨e, ?_, ?_, by ring, h800, ?_⟩
  · rw [e]
    have h1 : (ow : ℚ) * min ((tw : ℚ) / (ow : ℚ)) ((th : ℚ) / (oh : ℚ)) ≤ (tw : ℚ) := by
      calc (ow : ℚ) * min ((tw : ℚ) / (ow : ℚ)) ((th : ℚ) / (oh : ℚ))
          ≤ (ow : ℚ) * ((tw : ℚ) / (ow : ℚ)) :=
            mul_le_mul_of_nonneg_left (min_le_left _ _) (le_of_lt how)
        _ = (tw : ℚ) := by field_simp
    calc ⌊(ow : ℚ) * min ((tw : ℚ) / (ow : ℚ)) ((th : ℚ) / (oh : ℚ))⌋
        ≤ ⌊(tw : ℚ)⌋ := Int.floor_le_floor h1
      _ = tw := Int.floor_intCast tw
  · rw [e]
    have h1 : (oh : ℚ) * min ((tw : ℚ) / (ow : ℚ)) ((th : ℚ) / (oh : ℚ)) ≤ (th : ℚ) := by
      calc (oh : ℚ) * min ((tw : ℚ) / (ow : ℚ)) ((th : ℚ) / (oh : ℚ))
          ≤ (oh : ℚ) * ((th : ℚ) / (oh : ℚ)) :=
            mul_le_mul_of_nonneg_left (min_le_right _ _) (le_of_lt hoh)
        _ = (th : ℚ) := by field_simp
    calc ⌊(oh : ℚ) * min ((tw : ℚ) / (ow : ℚ)) ((th : ℚ) / (oh : ℚ))⌋
        ≤ ⌊(th : ℚ)⌋ := Int.floor_le_floor h1
      _ = th := Int.floor_intCast th
  · have e2 : replace_image_shape "\x7b\x7bProduct Packshot1\x7d\x7d" 300 300 (fun _ => "u")
        (fun _ => some (800, 400)) = ("", some (scale_image 800 400 300 300)) := rfl
    rw [e2, h800]

/-- Counterexample to claim C9 as stated: a 4×3 image in a 2×2 region has
s = 1/2 and h·s = 3/2, but the inserted height is int(3/2) = 1, so the
inserted dimensions are not (w·s, h·s). -/
theorem scale_image_truncates :
    scale_image 4 3 2 2 = (2, 1)
    ∧ (3 : ℚ) * min ((2 : ℚ) / 4) ((2 : ℚ) / 3) = 3 / 2
    ∧ ((1 : ℚ) ≠ 3 / 2) := by
  refine ⟨by unfold scale_image pyInt; norm_num [min_def], by norm_num [min_def], by norm_num⟩

/-- Witness for `scale_image_characterization` at the spec's 800×400 image
and 300×300 region. -/
theorem scale_image_characterization_witness :
    ((0 : ℤ) < 800 ∧ (0 : ℤ) < 400 ∧ (0 : ℤ) < 300)
    ∧ scale_image 800 400 300 300 = (300, 150) :=
  ⟨⟨by decide, by decide, by decide⟩,
    (scale_image_characterization 800 400 300 300 (by decide) (by decide) (by decide)
      (by decide)).2.2.2.2.1⟩
